import Mathlib

/-!
Shallow embedding of `mtprothon/type_language/primitives.py`: the TL
primitive codecs (Int/Long/Int128/Int256, Double, Bool, Bytes, String,
Vector) together with the byte-cursor semantics of `io.BytesIO` that the
Python code reads from.

Bytes are modelled as natural numbers (the values produced by the model
are always < 256); a `BytesIO` read cursor is a list of bytes plus a
read position.  Python exceptions are modelled with `Except`:
`int.to_bytes` raises `OverflowError` on an out-of-range value and
`struct.unpack` raises `struct.error` on a short buffer, while
`BytesIO.read(n)` never raises — it simply returns the (at most `n`)
bytes that remain.  The spec's error taxonomy names a `StreamUnderrun`
error, so the error type carries a constructor for it; the development
shows where the code does and does not produce such an error.
-/

namespace TL

/-- Read cursor over an in-memory byte buffer, modelling the reading side
of `io.BytesIO`: the buffer contents and the current read position. -/
structure Cursor where
  data : List Nat
  pos : Nat
  deriving DecidableEq

/-- Python exceptions relevant to the codecs, plus the `StreamUnderrun`
error named by the spec's error taxonomy. -/
inductive Err where
  | streamUnderrun : Err
  | overflowError : Err
  | structError : Err
  deriving DecidableEq

deriving instance DecidableEq for Except

/-- `BytesIO.read(n)`: return at most `n` bytes starting at the current
position and advance the position by the number of bytes returned.  A
short or empty result (when fewer than `n` bytes remain) is not an
error. -/
def Cursor.read (c : Cursor) (n : Nat) : List Nat × Cursor :=
  let chunk := (c.data.drop c.pos).take n
  (chunk, ⟨c.data, c.pos + chunk.length⟩)

/-- `int.from_bytes(bs, byteorder="little", signed=False)`:
little-endian base-256 value of a byte list (0 on the empty list). -/
def natFromBytesLE : List Nat → Nat
  | [] => 0
  | b :: rest => b + 256 * natFromBytesLE rest

/-- `x.to_bytes(n, byteorder="little")` without the range check:
the `n` low base-256 digits of `x`, least significant first. -/
def natToBytesLE : Nat → Nat → List Nat
  | _, 0 => []
  | x, n + 1 => x % 256 :: natToBytesLE (x / 256) n

/-- `int.from_bytes(bs, byteorder="little", signed=signed)`: unsigned
little-endian value, reinterpreted by two's complement when `signed`
and the top bit of the highest byte is set. -/
def intFromBytesLE (signed : Bool) (bs : List Nat) : Int :=
  let u := natFromBytesLE bs
  if signed then
    if 2 ^ (8 * bs.length - 1) ≤ u then (u : Int) - 2 ^ (8 * bs.length) else (u : Int)
  else (u : Int)

/-- `Int.serialize` (shared by `Long`/`Int128`/`Int256` via `cls.LENGTH`):
`self.value.to_bytes(cls.LENGTH, byteorder="little", signed=signed)`.
Python's `to_bytes` raises `OverflowError` when the value is outside the
representable range; otherwise the bytes are the value modulo
`2^(8*length)` in little-endian order (two's complement when signed). -/
def Int.serialize (value : Int) (length : Nat) (signed : Bool) : Except Err (List Nat) :=
  if signed then
    if -(2 ^ (8 * length - 1) : Int) ≤ value ∧ value < 2 ^ (8 * length - 1) then
      .ok (natToBytesLE (value.emod (2 ^ (8 * length))).toNat length)
    else .error Err.overflowError
  else
    if 0 ≤ value ∧ value < 2 ^ (8 * length) then
      .ok (natToBytesLE value.toNat length)
    else .error Err.overflowError

/-- `Int.deserialize` (shared by `Long`/`Int128`/`Int256` via
`cls.LENGTH`): `int.from_bytes(data.read(cls.LENGTH), "little", signed)`.
`data.read` returns whatever bytes remain (possibly fewer than
`length`, possibly none) and `int.from_bytes` accepts any length, so
this never raises. -/
def Int.deserialize (data : Cursor) (length : Nat) (signed : Bool) : Except Err (Int × Cursor) :=
  let (bs, c) := data.read length
  .ok (intFromBytesLE signed bs, c)

/-- `Int.LENGTH`. -/
def Int.LENGTH : Nat := 4

/-- `Long.LENGTH`. -/
def Long.LENGTH : Nat := 8

/-- `Int128.LENGTH`. -/
def Int128.LENGTH : Nat := 16

/-- `Int256.LENGTH`. -/
def Int256.LENGTH : Nat := 32

/-- `Double.deserialize`: `struct.unpack('<d', data.read(8))[0]`.  The
decoded double is represented here by its raw 8-byte little-endian
pattern (the IEEE-754 value it denotes is not modelled; no claim
depends on it).  `struct.unpack('<d', b)` requires `len(b) == 8` and
raises `struct.error` otherwise, which happens exactly when fewer than
8 bytes remain in the cursor. -/
def Double.deserialize (data : Cursor) : Except Err (List Nat × Cursor) :=
  let (bs, c) := data.read 8
  if bs.length = 8 then .ok (bs, c) else .error Err.structError

/-- `Bool.BOOL_TRUE = 0x997275b5`. -/
def Bool.BOOL_TRUE : Int := 0x997275b5

/-- `Bool.BOOL_FALSE = 0xbc799737`. -/
def Bool.BOOL_FALSE : Int := 0xbc799737

/-- `Bool.serialize`: `Int(constructor_id).serialize(signed=False)` with
`constructor_id = BOOL_TRUE if self.value else BOOL_FALSE`. -/
def Bool.serialize (value : Bool) : Except Err (List Nat) :=
  Int.serialize (if value then Bool.BOOL_TRUE else Bool.BOOL_FALSE) 4 false

/-- `Bool.deserialize`: `Int.deserialize(data, signed=False) == cls.BOOL_TRUE`. -/
def Bool.deserialize (data : Cursor) : Except Err (Bool × Cursor) :=
  match Int.deserialize data 4 false with
  | .error e => .error e
  | .ok (v, c) => .ok (decide (v = Bool.BOOL_TRUE), c)

/-- The tail of `Bytes.serialize`: append `(4 - len(result) % 4) % 4`
zero bytes so the total length is a multiple of 4. -/
def Bytes.withPadding (result : List Nat) : List Nat :=
  result ++ List.replicate ((4 - result.length % 4) % 4) 0

/-- `Bytes.serialize`: a one-byte length prefix when `len(value) <= 253`,
otherwise the sentinel byte `0xFE` followed by
`length.to_bytes(length=3, byteorder="little")` — which raises
`OverflowError` when the length does not fit in 3 bytes — then the
payload, then zero padding to a multiple of 4. -/
def Bytes.serialize (value : List Nat) : Except Err (List Nat) :=
  let length := value.length
  if length ≤ 253 then
    .ok (Bytes.withPadding (length :: value))
  else if length < 2 ^ 24 then
    .ok (Bytes.withPadding (0xFE :: (natToBytesLE length 3 ++ value)))
  else
    .error Err.overflowError

/-- `Bytes.deserialize`: read one byte; if it is `<= 253` it is the
length, otherwise the next 3 bytes (little-endian) are; then return
`data.read(length)`.  All reads are `BytesIO.read`, so a truncated
buffer yields a short (or empty) result rather than an error, and the
trailing padding bytes are never read. -/
def Bytes.deserialize (data : Cursor) : Except Err (List Nat × Cursor) :=
  let (fb, c1) := data.read 1
  let first_byte := natFromBytesLE fb
  let (length, c2) :=
    if first_byte ≤ 253 then (first_byte, c1)
    else
      let (lb, c2) := c1.read 3
      (natFromBytesLE lb, c2)
  let (payload, c3) := c2.read length
  .ok (payload, c3)

/-- The `value` attribute of a `TLObject` as Python sees it for the
`String` codec: either text (a list of Unicode code points) or a bytes
object. -/
inductive PyValue where
  | str (s : List Nat) : PyValue
  | bytes (b : List Nat) : PyValue
  deriving DecidableEq

/-- UTF-8 encoding of one Unicode code point (`str.encode("utf-8")`,
per code point). -/
def utf8EncodeChar (c : Nat) : List Nat :=
  if c < 0x80 then [c]
  else if c < 0x800 then
    [0xC0 ||| (c >>> 6), 0x80 ||| (c &&& 0x3F)]
  else if c < 0x10000 then
    [0xE0 ||| (c >>> 12), 0x80 ||| ((c >>> 6) &&& 0x3F), 0x80 ||| (c &&& 0x3F)]
  else
    [0xF0 ||| (c >>> 18), 0x80 ||| ((c >>> 12) &&& 0x3F),
     0x80 ||| ((c >>> 6) &&& 0x3F), 0x80 ||| (c &&& 0x3F)]

/-- `s.encode("utf-8")` on a text value given as code points. -/
def utf8Encode (s : List Nat) : List Nat :=
  (s.map utf8EncodeChar).flatten

/-- `String.serialize` on an object whose `value` field holds the text
`value`: the method executes `self.value = self.value.encode("utf-8")`
and then delegates to `Bytes.serialize`.  The first component is the
object's `value` field after the call (the bytes it was overwritten
with); the second is the returned byte string. -/
def String.serialize (value : List Nat) : PyValue × Except Err (List Nat) :=
  let encoded := utf8Encode value
  (PyValue.bytes encoded, Bytes.serialize encoded)

/-- The `for _ in range(count)` loop of `Vector.deserialize`: run the
element codec `count` times in sequence, collecting results in order;
an element failure aborts the whole loop. -/
def Vector.deserializeLoop {α : Type} (type : Cursor → Except Err (α × Cursor)) :
    Nat → Cursor → Except Err (List α × Cursor)
  | 0, c => .ok ([], c)
  | n + 1, c =>
    match type c with
    | .error e => .error e
    | .ok (item, c1) =>
      match Vector.deserializeLoop type n c1 with
      | .error e => .error e
      | .ok (items, c2) => .ok (item :: items, c2)

/-- `Vector.ID = 0x1CB5C415`. -/
def Vector.ID : Nat := 0x1CB5C415

/-- `Vector.deserialize`: `constructor = Int.deserialize(data)` (signed,
result discarded, never compared with `cls.ID`), `count =
Int.deserialize(data)` (signed, the default), then the element codec is
run `count` times — `range(count)`, which is empty when `count` is
negative. -/
def Vector.deserialize {α : Type} (type : Cursor → Except Err (α × Cursor))
    (data : Cursor) : Except Err (List α × Cursor) :=
  match Int.deserialize data 4 true with
  | .error e => .error e
  | .ok (_constructor, c1) =>
    match Int.deserialize c1 4 true with
    | .error e => .error e
    | .ok (count, c2) => Vector.deserializeLoop type count.toNat c2

/-! ### Helper lemmas -/

lemma natToBytesLE_length (x n : Nat) : (natToBytesLE x n).length = n := by
  induction n generalizing x with
  | zero => rfl
  | succ n ih => simp [natToBytesLE, ih]

lemma natFromBytesLE_natToBytesLE (x n : Nat) :
    natFromBytesLE (natToBytesLE x n) = x % 256 ^ n := by
  induction n generalizing x with
  | zero => simp [natToBytesLE, natFromBytesLE, Nat.mod_one]
  | succ n ih =>
    have h1 : x % (256 * 256 ^ n) % 256 = x % 256 :=
      Nat.mod_mod_of_dvd x ⟨256 ^ n, rfl⟩
    have h2 : x % (256 * 256 ^ n) / 256 = x / 256 % 256 ^ n :=
      Nat.mod_mul_right_div_self x 256 (256 ^ n)
    have h3 : 256 * (x % (256 * 256 ^ n) / 256) + x % (256 * 256 ^ n) % 256
        = x % (256 * 256 ^ n) := Nat.div_add_mod _ 256
    have hp : (256 : Nat) ^ (n + 1) = 256 * 256 ^ n := by ring
    simp only [natToBytesLE, natFromBytesLE, ih, hp]
    omega

lemma withPadding_length_mod_four (l : List Nat) : (Bytes.withPadding l).length % 4 = 0 := by
  simp only [Bytes.withPadding, List.length_append, List.length_replicate]
  omega

lemma deserializeLoop_length {α : Type} (d : Cursor → Except Err (α × Cursor)) :
    ∀ (n : Nat) (c : Cursor) (items : List α) (c2 : Cursor),
      Vector.deserializeLoop d n c = .ok (items, c2) → items.length = n := by
  intro n
  induction n with
  | zero =>
    intro c items c2 h
    simp only [Vector.deserializeLoop, Except.ok.injEq, Prod.mk.injEq] at h
    rw [← h.1]
    rfl
  | succ n ih =>
    intro c items c2 h
    unfold Vector.deserializeLoop at h
    cases hx : d c with
    | error e => simp [hx] at h
    | ok r =>
      obtain ⟨x, c1⟩ := r
      simp only [hx] at h
      cases hl : Vector.deserializeLoop d n c1 with
      | error e => simp [hl] at h
      | ok r2 =>
        obtain ⟨xs, c3⟩ := r2
        simp only [hl, Except.ok.injEq, Prod.mk.injEq] at h
        rw [← h.1]
        simp [ih c1 xs c3 hl]

lemma deserializeLoop_ok_of_total {α : Type} (d : Cursor → Except Err (α × Cursor))
    (hd : ∀ k, ∃ r, d k = .ok r) (n : Nat) (c : Cursor) :
    ∃ r, Vector.deserializeLoop d n c = .ok r := by
  induction n generalizing c with
  | zero => exact ⟨([], c), rfl⟩
  | succ n ih =>
    obtain ⟨⟨x, c1⟩, hx⟩ := hd c
    obtain ⟨⟨xs, c2⟩, hxs⟩ := ih c1
    exact ⟨(x :: xs, c2), by simp [Vector.deserializeLoop, hx, hxs]⟩

/-! ### Claim theorems -/

/-- Claim C9: serializing the 4-byte integer -1 with signed=true yields
exactly the bytes FF FF FF FF, and serializing the byte string b"ab"
(bytes 61 62) yields exactly the bytes 02 61 62 00. -/
theorem serialize_examples :
    Int.serialize (-1) 4 true = .ok [0xFF, 0xFF, 0xFF, 0xFF] ∧
    Bytes.serialize [0x61, 0x62] = .ok [0x02, 0x61, 0x62, 0x00] := by
  decide

/-- Claim C3: every byte list produced by `Bytes.serialize` (length
prefix, payload and zero padding together) has length divisible by 4. -/
theorem bytes_serialize_length_mod_four (v r : List Nat)
    (h : Bytes.serialize v = .ok r) : r.length % 4 = 0 := by
  simp only [Bytes.serialize] at h
  split at h
  · rw [Except.ok.injEq] at h
    rw [← h]
    exact withPadding_length_mod_four _
  · split at h
    · rw [Except.ok.injEq] at h
      rw [← h]
      exact withPadding_length_mod_four _
    · exact absurd h (by simp)

/-- Witness for C3 at the concrete payload [1, 2, 3, 4, 5]. -/
theorem bytes_serialize_length_mod_four_witness :
    Bytes.serialize [1, 2, 3, 4, 5] = .ok [5, 1, 2, 3, 4, 5, 0, 0] ∧
    ([5, 1, 2, 3, 4, 5, 0, 0] : List Nat).length % 4 = 0 :=
  ⟨by decide, bytes_serialize_length_mod_four [1, 2, 3, 4, 5] [5, 1, 2, 3, 4, 5, 0, 0] (by decide)⟩

/-- Claim C8: `String.serialize` is not a pure read of its input: the
object's `value` field after the call is the UTF-8 byte encoding of the
text and is never the text value that was held before the call. -/
theorem string_serialize_mutates_value (s : List Nat) :
    (String.serialize s).1 = PyValue.bytes (utf8Encode s) ∧
    ∀ t : List Nat, (String.serialize s).1 ≠ PyValue.str t := by
  refine ⟨rfl, ?_⟩
  intro t h
  simp [String.serialize] at h

/-- Witness for C8 at the one-character text "h" (code point 104). -/
theorem string_serialize_mutates_value_witness :
    (String.serialize [104]).1 = PyValue.bytes (utf8Encode [104]) ∧
    (String.serialize [104]).1 ≠ PyValue.str [104] :=
  ⟨(string_serialize_mutates_value [104]).1, (string_serialize_mutates_value [104]).2 [104]⟩

/-- Claim C5: `Bool.serialize` emits exactly the 4-byte little-endian
form of `0x997275b5` for true and of `0xbc799737` for false, and
`Bool.deserialize` of any 4 bytes returns true exactly when they decode
(unsigned, little-endian) to `0x997275b5` — the false constant and
every other 4-byte value yield false, and no error is ever raised. -/
theorem bool_codec_spec :
    Bool.serialize true = .ok [0xb5, 0x75, 0x72, 0x99] ∧
    Bool.serialize false = .ok [0x37, 0x97, 0x79, 0xbc] ∧
    ∀ bs : List Nat, bs.length = 4 →
      Bool.deserialize ⟨bs, 0⟩ = .ok (decide (natFromBytesLE bs = 0x997275b5), ⟨bs, 4⟩) := by
  refine ⟨by decide, by decide, ?_⟩
  intro bs h
  have htake : bs.take 4 = bs := List.take_of_length_le (by omega)
  have hd : decide ((natFromBytesLE bs : Int) = Bool.BOOL_TRUE)
      = decide (natFromBytesLE bs = 0x997275b5) := by
    rw [decide_eq_decide, show Bool.BOOL_TRUE = ((0x997275b5 : Nat) : Int) from rfl]
    exact Nat.cast_inj
  simp [Bool.deserialize, Int.deserialize, Cursor.read, intFromBytesLE, htake, h, hd]

/-- Witness for C5 at the false constant's bytes (which decode to false). -/
theorem bool_codec_spec_witness :
    Bool.deserialize ⟨[0x37, 0x97, 0x79, 0xbc], 0⟩ =
      .ok (false, ⟨[0x37, 0x97, 0x79, 0xbc], 4⟩) :=
  (bool_codec_spec.2.2 [0x37, 0x97, 0x79, 0xbc] rfl).trans (by decide)

/-- Counterexample to C1 as stated: on an empty cursor (0 of the 4
required bytes remain) `Int.deserialize` does not raise `StreamUnderrun`
— it succeeds and returns 0. -/
theorem int_deserialize_truncated_ok :
    Int.deserialize ⟨[], 0⟩ 4 true = .ok (0, ⟨[], 0⟩) ∧
    Int.deserialize ⟨[], 0⟩ 4 true ≠ .error Err.streamUnderrun := by
  decide

/-- Claim C1 (amended): on a cursor with fewer remaining bytes than the
width requires no codec reads out of bounds and none raises
`StreamUnderrun`: `Int.deserialize` (any width, so also Long/Int128/
Int256) succeeds, returning the value of exactly the bytes that remain
and consuming them; `Double.deserialize` raises `struct.error` (not
`StreamUnderrun`) when fewer than 8 bytes remain; and `Bool`, `Bytes`
and `Vector`-of-Int deserialization always return successfully. -/
theorem truncated_reads_never_stream_underrun (c : Cursor) (w : Nat) (s : Bool)
    (hp : c.pos ≤ c.data.length) (h : c.data.length - c.pos < w) :
    Int.deserialize c w s = .ok (intFromBytesLE s (c.data.drop c.pos), ⟨c.data, c.data.length⟩) ∧
    (c.data.length - c.pos < 8 → Double.deserialize c = .error Err.structError) ∧
    (∃ b c2, Bool.deserialize c = .ok (b, c2)) ∧
    (∃ p c2, Bytes.deserialize c = .ok (p, c2)) ∧
    (∃ l c2, Vector.deserialize (fun k => Int.deserialize k 4 true) c = .ok (l, c2)) := by
  have hdl : (c.data.drop c.pos).length = c.data.length - c.pos := List.length_drop _ _
  have htake : (c.data.drop c.pos).take w = c.data.drop c.pos :=
    List.take_of_length_le (by omega)
  refine ⟨?_, ?_, ⟨_, _, rfl⟩, ?_, ?_⟩
  · simp only [Int.deserialize, Cursor.read, htake, hdl]
    rw [Nat.add_sub_cancel' hp]
  · intro h8
    have htake8 : (c.data.drop c.pos).take 8 = c.data.drop c.pos :=
      List.take_of_length_le (by omega)
    simp only [Double.deserialize, Cursor.read, htake8]
    rw [if_neg (by omega)]
  · simp only [Bytes.deserialize, Cursor.read]
    split <;> exact ⟨_, _, rfl⟩
  · have hd : ∀ k : Cursor, ∃ r : Int × Cursor, Int.deserialize k 4 true = .ok r :=
      fun k => ⟨_, rfl⟩
    simp only [Vector.deserialize, Int.deserialize, Cursor.read]
    obtain ⟨⟨l, c2⟩, hl⟩ := deserializeLoop_ok_of_total _ hd _ _
    exact ⟨l, c2, hl⟩

/-- Witness for C1 (amended) at a 2-byte buffer read as a 4-byte Int. -/
theorem truncated_reads_never_stream_underrun_witness :
    Int.deserialize ⟨[1, 2], 0⟩ 4 false = .ok (513, ⟨[1, 2], 2⟩) ∧
    Double.deserialize ⟨[1, 2], 0⟩ = .error Err.structError ∧
    (∃ b c2, Bool.deserialize ⟨[1, 2], 0⟩ = .ok (b, c2)) ∧
    (∃ p c2, Bytes.deserialize ⟨[1, 2], 0⟩ = .ok (p, c2)) ∧
    (∃ l c2, Vector.deserialize (fun k => Int.deserialize k 4 true) ⟨[1, 2], 0⟩
      = .ok (l, c2)) := by
  obtain ⟨h1, h2, h3, h4, h5⟩ :=
    truncated_reads_never_stream_underrun ⟨[1, 2], 0⟩ 4 false (by decide) (by decide)
  exact ⟨h1.trans (by decide), h2 (by decide), h3, h4, h5⟩

/-- Claim C10: `Bytes.deserialize` treats every first byte strictly
greater than 253 — 0xFF just like the sentinel 0xFE — as the long form:
it reads the next 3 bytes as a little-endian length n and returns the
following n bytes. -/
theorem bytes_deserialize_long_form_over_253 (b : Nat) (t : List Nat)
    (hb : 253 < b) (ht : 3 ≤ t.length) :
    Bytes.deserialize ⟨b :: t, 0⟩ =
      .ok ((t.drop 3).take (natFromBytesLE (t.take 3)),
        ⟨b :: t, 4 + ((t.drop 3).take (natFromBytesLE (t.take 3))).length⟩) := by
  have hbne : ¬ (b ≤ 253) := by omega
  have hlen3 : (t.take 3).length = 3 := by
    simp [List.length_take]
    omega
  have e1 : ((b :: t).take 1) = [b] := rfl
  have e2 : natFromBytesLE [b] = b := by simp [natFromBytesLE]
  have e3 : (b :: t).drop 1 = t := rfl
  have e4 : (b :: t).drop 4 = t.drop 3 := rfl
  simp only [Bytes.deserialize, Cursor.read, List.drop_zero, e1, e2, List.length_cons,
    List.length_nil, zero_add, e3, hbne, if_false, hlen3, e4]

/-- Witness for C10: the input FF 02 00 00 41 42 00, whose first byte is
0xFF, decodes as the long form — length 2, payload 41 42 — exactly as it
would after a 0xFE sentinel. -/
theorem bytes_deserialize_long_form_over_253_witness :
    Bytes.deserialize ⟨[0xFF, 2, 0, 0, 0x41, 0x42, 0], 0⟩ =
      .ok ([0x41, 0x42], ⟨[0xFF, 2, 0, 0, 0x41, 0x42, 0], 6⟩) :=
  (bytes_deserialize_long_form_over_253 0xFF [2, 0, 0, 0x41, 0x42, 0] (by decide)
    (by decide)).trans (by decide)

/-- Claim C7: `Bytes.deserialize` reads exactly the n payload bytes
after the length prefix and stops: the final cursor position is the
prefix length (1 for the short form, 4 for the long form) plus n, so
the trailing zero-padding bytes are left unread for the caller. -/
theorem bytes_deserialize_leaves_padding (n m : Nat) (rest rest2 : List Nat)
    (hn : n ≤ 253) (hr : n ≤ rest.length) (hm : m < 2 ^ 24) (hr2 : m ≤ rest2.length) :
    Bytes.deserialize ⟨n :: rest, 0⟩ = .ok (rest.take n, ⟨n :: rest, 1 + n⟩) ∧
    Bytes.deserialize ⟨0xFE :: (natToBytesLE m 3 ++ rest2), 0⟩ =
      .ok (rest2.take m, ⟨0xFE :: (natToBytesLE m 3 ++ rest2), 4 + m⟩) := by
  constructor
  · have e1 : ((n :: rest).take 1) = [n] := rfl
    have e2 : natFromBytesLE [n] = n := by simp [natFromBytesLE]
    have e3 : (n :: rest).drop 1 = rest := rfl
    have hlen : (rest.take n).length = n := by
      simp [List.length_take]
      omega
    simp only [Bytes.deserialize, Cursor.read, List.drop_zero, e1, e2, List.length_cons,
      List.length_nil, zero_add, e3, hn, if_true, hlen]
  · have hltl : (natToBytesLE m 3).length = 3 := natToBytesLE_length m 3
    have e1 : ((0xFE :: (natToBytesLE m 3 ++ rest2)).take 1) = [0xFE] := rfl
    have e2 : natFromBytesLE [0xFE] = 0xFE := by simp [natFromBytesLE]
    have e3 : (0xFE :: (natToBytesLE m 3 ++ rest2)).drop 1 = natToBytesLE m 3 ++ rest2 := rfl
    have e4 : (0xFE :: (natToBytesLE m 3 ++ rest2)).drop 4 = (natToBytesLE m 3 ++ rest2).drop 3 :=
      rfl
    have e5 : (natToBytesLE m 3 ++ rest2).take 3 = natToBytesLE m 3 := List.take_left' hltl
    have e6 : (natToBytesLE m 3 ++ rest2).drop 3 = rest2 := List.drop_left' hltl
    have e7 : natFromBytesLE (natToBytesLE m 3) = m := by
      rw [natFromBytesLE_natToBytesLE]
      exact Nat.mod_eq_of_lt (by norm_num at hm ⊢; omega)
    have hcond : ¬ ((0xFE : Nat) ≤ 253) := by omega
    have hlen : (rest2.take m).length = m := by
      simp [List.length_take]
      omega
    simp only [Bytes.deserialize, Cursor.read, List.drop_zero, e1, e2, List.length_cons,
      List.length_nil, zero_add, e3, hcond, if_false, e4, e5, e6, e7, hltl, hlen]

/-- Witness for C7: decoding the serialized form of b"ab" stops after
the prefix and payload (position 3), leaving the padding byte unread;
the long-form part is witnessed at the empty payload. -/
theorem bytes_deserialize_leaves_padding_witness :
    Bytes.deserialize ⟨[2, 0x61, 0x62, 0], 0⟩ = .ok ([0x61, 0x62], ⟨[2, 0x61, 0x62, 0], 3⟩) ∧
    Bytes.deserialize ⟨[0xFE, 0, 0, 0], 0⟩ = .ok ([], ⟨[0xFE, 0, 0, 0], 4⟩) := by
  obtain ⟨h1, h2⟩ :=
    bytes_deserialize_leaves_padding 2 0 [0x61, 0x62, 0] [] (by decide) (by decide)
      (by decide) (by decide)
  exact ⟨h1.trans (by decide), h2.trans (by decide)⟩

/-- Claim C6: a payload of length exactly 253 is serialized in the
one-byte-prefix form and one of length 254 in the long form (sentinel
0xFE, then the length as 3 little-endian bytes, then the payload); both
outputs have total length divisible by 4. -/
theorem bytes_serialize_boundary (p q : List Nat)
    (hp : p.length = 253) (hq : q.length = 254) :
    Bytes.serialize p = .ok ((253 :: p) ++ [0, 0]) ∧
    ((253 :: p) ++ [0, 0]).length % 4 = 0 ∧
    Bytes.serialize q = .ok ((0xFE :: ([0xFE, 0, 0] ++ q)) ++ [0, 0]) ∧
    ((0xFE :: ([0xFE, 0, 0] ++ q)) ++ [0, 0]).length % 4 = 0 := by
  have h2 : List.replicate 2 (0 : Nat) = [0, 0] := rfl
  have h3 : natToBytesLE 254 3 = [0xFE, 0, 0] := rfl
  refine ⟨?_, by simp [hp], ?_, by simp [List.length_append, hq]⟩
  · simp only [Bytes.serialize, Bytes.withPadding, hp, List.length_cons, h2]
    norm_num [h2]
  · simp only [Bytes.serialize, Bytes.withPadding, hq, h3, List.length_cons,
      List.length_append, List.length_nil, h2]
    norm_num [h2]

/-- Witness for C6 at the all-zero payloads of lengths 253 and 254. -/
theorem bytes_serialize_boundary_witness :
    Bytes.serialize (List.replicate 253 0) =
      .ok ((253 :: List.replicate 253 0) ++ [0, 0]) ∧
    ((253 :: List.replicate 253 0) ++ ([0, 0] : List Nat)).length % 4 = 0 ∧
    Bytes.serialize (List.replicate 254 0) =
      .ok ((0xFE :: ([0xFE, 0, 0] ++ List.replicate 254 0)) ++ [0, 0]) ∧
    ((0xFE :: ([0xFE, 0, 0] ++ List.replicate 254 0)) ++ ([0, 0] : List Nat)).length % 4 = 0 :=
  bytes_serialize_boundary (List.replicate 253 0) (List.replicate 254 0)
    (List.length_replicate 253 0) (List.length_replicate 254 0)

/-- Counterexample to C2 as stated: on a vector header whose count
field is FF FF FF FF — unsigned value 4294967295 — the code returns 0
elements, not 4294967295, because the count is read as a signed 4-byte
integer (-1) and `range(-1)` is empty. -/
theorem vector_count_read_signed_counterexample :
    Vector.deserialize (fun k => Int.deserialize k 4 true)
        ⟨[0, 0, 0, 0, 0xFF, 0xFF, 0xFF, 0xFF], 0⟩ =
      .ok (([] : List Int), ⟨[0, 0, 0, 0, 0xFF, 0xFF, 0xFF, 0xFF], 8⟩) ∧
    natFromBytesLE [0xFF, 0xFF, 0xFF, 0xFF] = 4294967295 := by
  decide

/-- Claim C2 (amended): `Vector.deserialize` reads and discards a 4-byte
constructor id without validation, reads the element count as a signed
4-byte little-endian integer, and invokes the element codec exactly
`count` times when `count` is non-negative and zero times otherwise:
whenever it succeeds, the returned sequence has exactly
`max(count, 0)` (= `count.toNat`) elements in read order. -/
theorem vector_deserialize_count_signed {α : Type} (d : Cursor → Except Err (α × Cursor))
    (c : Cursor) (items : List α) (c2 : Cursor)
    (h : Vector.deserialize d c = .ok (items, c2)) :
    items.length = (intFromBytesLE true (((c.read 4).2).read 4).1).toNat := by
  simp only [Vector.deserialize, Int.deserialize, Cursor.read] at h ⊢
  exact deserializeLoop_length d _ _ _ _ h

/-- Witness for C2 (amended): a well-formed vector of two 4-byte ints. -/
theorem vector_deserialize_count_signed_witness :
    ([5, 7] : List Int).length =
      (intFromBytesLE true
        ((((⟨[0x15, 0xC4, 0xB5, 0x1C, 2, 0, 0, 0, 5, 0, 0, 0, 7, 0, 0, 0], 0⟩ : Cursor).read
          4).2.read 4).1)).toNat :=
  vector_deserialize_count_signed (fun k => Int.deserialize k 4 true) _ [5, 7]
    ⟨[0x15, 0xC4, 0xB5, 0x1C, 2, 0, 0, 0, 5, 0, 0, 0, 7, 0, 0, 0], 16⟩ (by decide)

lemma int_roundtrip_aux (w : Nat) (hw : 1 ≤ w) (s : Bool) (x : Int)
    (hx : if s then -(2 ^ (8 * w - 1) : Int) ≤ x ∧ x < 2 ^ (8 * w - 1)
          else 0 ≤ x ∧ x < 2 ^ (8 * w)) :
    ∃ bs, Int.serialize x w s = .ok bs ∧ bs.length = w ∧
      Int.deserialize ⟨bs, 0⟩ w s = .ok (x, ⟨bs, w⟩) := by
  have h256 : (256 : Nat) ^ w = 2 ^ (8 * w) := by
    rw [show (256 : Nat) = 2 ^ 8 from rfl, ← pow_mul]
  cases s with
  | false =>
    rw [if_neg (by simp)] at hx
    obtain ⟨hx0, hxlt⟩ := hx
    have hcastN : (((2 ^ (8 * w) : Nat) : Int)) = 2 ^ (8 * w) := by push_cast; ring
    refine ⟨natToBytesLE x.toNat w, by simp [Int.serialize, hx0, hxlt],
      natToBytesLE_length _ _, ?_⟩
    have hlen := natToBytesLE_length x.toNat w
    have htake : (natToBytesLE x.toNat w).take w = natToBytesLE x.toNat w :=
      List.take_of_length_le (by omega)
    have hxN : x.toNat < 2 ^ (8 * w) := by
      have h1 : (x.toNat : Int) < ((2 ^ (8 * w) : Nat) : Int) := by
        rw [hcastN]
        omega
      exact_mod_cast h1
    have hufb : natFromBytesLE (natToBytesLE x.toNat w) = x.toNat := by
      rw [natFromBytesLE_natToBytesLE, h256]
      exact Nat.mod_eq_of_lt hxN
    simp only [Int.deserialize, Cursor.read, List.drop_zero, htake, intFromBytesLE, hufb,
      hlen, zero_add]
    rw [if_neg (by simp), Int.toNat_of_nonneg hx0]
  | true =>
    rw [if_pos rfl] at hx
    obtain ⟨hx1, hx2⟩ := hx
    obtain ⟨H, hH⟩ : ∃ H : Int, (2 : Int) ^ (8 * w - 1) = H := ⟨_, rfl⟩
    obtain ⟨N, hN⟩ : ∃ N : Int, (2 : Int) ^ (8 * w) = N := ⟨_, rfl⟩
    obtain ⟨K, hK⟩ : ∃ K : Nat, (2 : Nat) ^ (8 * w - 1) = K := ⟨_, rfl⟩
    obtain ⟨M, hM⟩ : ∃ M : Nat, (2 : Nat) ^ (8 * w) = M := ⟨_, rfl⟩
    rw [hH] at hx1 hx2
    have hNH : N = 2 * H := by
      have h1 : (2 : Int) ^ (8 * w) = 2 ^ ((8 * w - 1) + 1) := by
        rw [show (8 * w - 1) + 1 = 8 * w by omega]
      rw [← hN, ← hH, h1, pow_succ]
      ring
    have hH0 : (0 : Int) < H := by rw [← hH]; positivity
    have hMN : ((M : Nat) : Int) = N := by rw [← hM, ← hN]; push_cast; ring
    have hKH : ((K : Nat) : Int) = H := by rw [← hK, ← hH]; push_cast; ring
    have hMK : M = 2 * K := by
      have h1 : ((M : Nat) : Int) = 2 * ((K : Nat) : Int) := by rw [hMN, hKH]; exact hNH
      exact_mod_cast h1
    obtain ⟨E, hE⟩ : ∃ E : Int, x.emod N = E := ⟨_, rfl⟩
    have hE0 : 0 ≤ E := by rw [← hE]; exact Int.emod_nonneg x (by omega)
    have hElt : E < N := by rw [← hE]; exact Int.emod_lt_of_pos x (by omega)
    have hEval : E = x ∨ E = x + N := by
      rcases le_or_lt 0 x with hpos | hneg
      · left
        rw [← hE]
        exact Int.emod_eq_of_lt hpos (by omega)
      · right
        have h1 : (x + N * 1).emod N = x.emod N := Int.add_mul_emod_self_left x N 1
        have h2 : x + N * 1 = x + N := by ring
        rw [← hE, ← h1, h2]
        exact Int.emod_eq_of_lt (by omega) (by omega)
    have hser : Int.serialize x w true = .ok (natToBytesLE E.toNat w) := by
      simp only [Int.serialize, hH, hN, hE, if_true]
      rw [if_pos (show -H ≤ x ∧ x < H from ⟨hx1, hx2⟩)]
    refine ⟨natToBytesLE E.toNat w, hser, natToBytesLE_length _ _, ?_⟩
    have hlen := natToBytesLE_length E.toNat w
    have htake : (natToBytesLE E.toNat w).take w = natToBytesLE E.toNat w :=
      List.take_of_length_le (by omega)
    have hufb : natFromBytesLE (natToBytesLE E.toNat w) = E.toNat := by
      rw [natFromBytesLE_natToBytesLE, h256, hM]
      exact Nat.mod_eq_of_lt (by omega)
    simp only [Int.deserialize, Cursor.read, List.drop_zero, htake, intFromBytesLE, hufb,
      hlen, zero_add, if_true, hK, hN]
    rcases hEval with hEx | hEx
    · rw [if_neg (by omega)]
      rw [show ((E.toNat : Int)) = x by omega]
    · rw [if_pos (by omega)]
      rw [show ((E.toNat : Int)) - N = x by omega]

/-- Claim C4: for every width in {4, 8, 16, 32} and every integer
representable at that width and signedness — the full two's-complement
range when signed, the full unsigned range otherwise — serializing and
then deserializing with the same width and signedness returns the
integer unchanged (and the serialized form has exactly `width` bytes). -/
theorem int_roundtrip (w : Nat)
    (hw : w = Int.LENGTH ∨ w = Long.LENGTH ∨ w = Int128.LENGTH ∨ w = Int256.LENGTH)
    (s : Bool) (x : Int)
    (hx : if s then -(2 ^ (8 * w - 1) : Int) ≤ x ∧ x < 2 ^ (8 * w - 1)
          else 0 ≤ x ∧ x < 2 ^ (8 * w)) :
    ∃ bs, Int.serialize x w s = .ok bs ∧ bs.length = w ∧
      Int.deserialize ⟨bs, 0⟩ w s = .ok (x, ⟨bs, w⟩) := by
  apply int_roundtrip_aux w ?_ s x hx
  rcases hw with rfl | rfl | rfl | rfl <;> decide

/-- Witness for C4: the signed 4-byte round trip of -1. -/
theorem int_roundtrip_witness :
    ∃ bs, Int.serialize (-1) 4 true = .ok bs ∧ bs.length = 4 ∧
      Int.deserialize ⟨bs, 0⟩ 4 true = .ok (-1, ⟨bs, 4⟩) :=
  int_roundtrip 4 (Or.inl rfl) true (-1) (by decide)

end TL
